import Mathlib

/-!
# VersionTools core layer: a shallow embedding

This file embeds, in Lean, the string utilities, text-protocol decoders and
dispatcher/executor logic of the VersionTools core layer
(`src/core/GitUtils.cpp`, `src/core/GitManager.cpp`, `src/core/SystemCommand.cpp`)
and proves or refutes the specified properties of that layer.

Strings are modelled as `List Char`; `std::string::find`-based scanning, the
field splitter/joiner, the porcelain-status decoder, the NUL-delimited log
decoder, the unified-diff decoder, and the exit-code classifier are each
translated function-for-function from the C++ source.
-/

namespace VersionTools

/-- Strings of the C++ layer, modelled as lists of characters. -/
abbrev Str := List Char

/-- The `"|"` field delimiter used by the log/ref/tag/stash decoders. -/
def pipeDelim : Str := ['|']

/-- The single-NUL record delimiter used by `getCommitHistory` (`-z` output). -/
def nulDelim : Str := [Char.ofNat 0]

/-- The rename/copy separator token inside porcelain status paths. -/
def arrowDelim : Str := (" -> ").toList

/-- The line delimiter used by `parseGitOutput`'s default. -/
def newlineDelim : Str := ['\n']

/-- The space delimiter used to split the parent-hash field of a log record. -/
def spaceDelim : Str := [' ']

/-- The marker substring `GitManager::executeGitCommand` looks for in the
captured stdout of a failed invocation (GitManager.cpp line 371). -/
def notARepoMarker : Str := ("not a git repository").toList

/-! ## String scanning (`std::string::find`) -/

/-- Does `pat` occur at the very start of `s`?  This is the per-position
comparison performed by `std::string::find`. -/
def headOccur (s pat : Str) : Bool := s.take pat.length == pat

/-- Index of the first occurrence of `pat` in `s`: the value of
`std::string::find` (`none` plays the role of `npos`). -/
def strFind : Str → Str → Option Nat
  | [], pat => if headOccur [] pat then some 0 else none
  | c :: rest, pat =>
    if headOccur (c :: rest) pat then some 0
    else (strFind rest pat).map (· + 1)

/-- `s.find(pat) != npos`, the containment test used throughout the source. -/
def containsSub (s pat : Str) : Bool := (strFind s pat).isSome

/-! ## `GitUtils::split` and `GitUtils::join` (GitUtils.cpp lines 36-59) -/

/-- The loop body of `GitUtils::split`.  Each iteration of the C++ loop
consumes at least `d.length ≥ 1` characters of the remaining string, so
`s.length` bounds the number of iterations; `fuel` makes that bound explicit
(with a nonempty delimiter the zero-fuel branch is never reached). -/
def splitFuel (d : Str) : Nat → Str → List Str
  | 0, s => [s]
  | fuel + 1, s =>
    match strFind s d with
    | none => [s]
    | some i => s.take i :: splitFuel d fuel (s.drop (i + d.length))

/-- `GitUtils::split`: tokens between occurrences of `d`, with the final
remainder always pushed (so a trailing delimiter yields a trailing empty
token).  The C++ loop does not terminate on an empty delimiter; the repo only
ever passes nonempty delimiters. -/
def split (s d : Str) : List Str := splitFuel d s.length s

/-- `GitUtils::join`: starts from the first part and appends
`delimiter + part` for each further part; empty input joins to the empty
string. -/
def join (parts : List Str) (d : Str) : Str :=
  match parts with
  | [] => []
  | p :: ps => ps.foldl (fun acc x => acc ++ (d ++ x)) p

/-! ## Status decoder (`GitManager::parseFileChange` / `GitManager::getStatus`) -/

/-- `FileStatus` from GitTypes.h.  `Untracked` is the first enumerator, so
value-initialization (`return {};`) yields `Untracked`. -/
inductive FileStatus
  | Untracked | Modified | Added | Deleted | Renamed | Copied | Conflicted | Ignored
deriving DecidableEq

/-- `GitFileChange` from GitTypes.h.  The defaults are what C++
value-initialization produces: empty strings, enumerator 0 (`Untracked`),
`false`. -/
structure GitFileChange where
  filePath : Str := []
  oldPath : Str := []
  status : FileStatus := .Untracked
  isStaged : Bool := false

/-- The staged/unstaged flag decision chain of `parseFileChange`
(GitManager.cpp lines 437-472), first match wins.  The final arm covers flag
pairs no branch of the C++ chain matches; the C++ local is left with its
declared-then-unassigned fields there, and no claim concerns that case. -/
def flagStatus (c0 c1 : Char) : FileStatus × Bool :=
  if c0 = '?' ∧ c1 = '?' then (.Untracked, false)
  else if c0 = '!' ∧ c1 = '!' then (.Ignored, false)
  else if c0 = 'A' then (.Added, true)
  else if c0 = 'M' then (.Modified, true)
  else if c0 = 'D' then (.Deleted, true)
  else if c0 = 'R' then (.Renamed, true)
  else if c0 = 'C' then (.Copied, true)
  else if c1 = 'M' then (.Modified, false)
  else if c1 = 'D' then (.Deleted, false)
  else if c1 = 'U' ∨ c0 = 'U' then (.Conflicted, false)
  else if c1 = 'A' then (.Added, false)
  else (.Untracked, false)

/-- The flag-pair decision table exactly as the specification sentence states
it, most specific first: `??` Untracked, `!!` Ignored, staged-column
A/M/D/R/C staged, else unstaged-column M/D unstaged, else either column `U`
Conflicted, else unstaged `A`.  Modelled from the spec's words (not from the
code) for comparison with `flagStatus`; `none` covers flag pairs the
specification leaves undetermined. -/
def specFlagDecision (c0 c1 : Char) : Option (FileStatus × Bool) :=
  if c0 = '?' ∧ c1 = '?' then some (.Untracked, false)
  else if c0 = '!' ∧ c1 = '!' then some (.Ignored, false)
  else if c0 = 'A' then some (.Added, true)
  else if c0 = 'M' then some (.Modified, true)
  else if c0 = 'D' then some (.Deleted, true)
  else if c0 = 'R' then some (.Renamed, true)
  else if c0 = 'C' then some (.Copied, true)
  else if c1 = 'M' then some (.Modified, false)
  else if c1 = 'D' then some (.Deleted, false)
  else if c1 = 'U' ∨ c0 = 'U' then some (.Conflicted, false)
  else if c1 = 'A' then some (.Added, false)
  else none

/-- The rename/copy handling of `parseFileChange` (GitManager.cpp lines
429-435): when the path text contains `" -> "` and splits on it into exactly
two parts, they become (old path, new path); otherwise the old path stays
empty and the whole text is the file path. -/
def splitRenamePath (fp0 : Str) : Str × Str :=
  if containsSub fp0 arrowDelim then
    let parts := split fp0 arrowDelim
    if parts.length = 2 then (parts[0]!, parts[1]!) else ([], fp0)
  else ([], fp0)

/-- `GitManager::parseFileChange` (GitManager.cpp lines 418-475): lines
shorter than 3 characters yield the value-initialized record; otherwise the
path is the text from offset 3 (run through the rename split) and the status
flags are decoded from the first two characters. -/
def parseFileChange (statusLine : Str) : GitFileChange :=
  match statusLine with
  | c0 :: c1 :: _ :: rest =>
    { filePath := (splitRenamePath rest).2
      oldPath := (splitRenamePath rest).1
      status := (flagStatus c0 c1).1
      isStaged := (flagStatus c0 c1).2 }
  | _ => {}

/-- The status fields of `GitStatus` (GitTypes.h) that the file-change loop
of `getStatus` populates.  The branch-header fields (current branch,
upstream, ahead/behind counts) are parsed separately by a regex on the first
line and are not involved in any property below. -/
structure GitStatus where
  hasUncommittedChanges : Bool := false
  hasUnstagedChanges : Bool := false
  hasStagedChanges : Bool := false
  changes : List GitFileChange := []

/-- One iteration of the file-change loop of `GitManager::getStatus`
(GitManager.cpp lines 191-206): lines shorter than 3 characters are skipped;
otherwise the decoded change is appended and the three summary flags are
updated (`hasUnstagedChanges` only via the `else`-branch of the
`isStaged` test). -/
def statusStep (st : GitStatus) (line : Str) : GitStatus :=
  if 3 ≤ line.length then
    let change := parseFileChange line
    { changes := st.changes ++ [change]
      hasUncommittedChanges := st.hasUncommittedChanges || decide (change.status ≠ .Ignored)
      hasStagedChanges := st.hasStagedChanges || change.isStaged
      hasUnstagedChanges := st.hasUnstagedChanges ||
        (!change.isStaged && decide (change.status ≠ .Untracked)) }
  else st

/-- The file-change part of `GitManager::getStatus`, applied to the lines of
the porcelain report: the loop starts at index 1 (the first line is reserved
for the branch header) and folds `statusStep` over the rest. -/
def parseStatusChanges (lines : List Str) : GitStatus :=
  (lines.drop 1).foldl statusStep {}

/-! ## Log decoder (`GitManager::parseCommit` / `GitManager::getCommitHistory`) -/

/-- `GitCommit` from GitTypes.h, with the timestamp as epoch seconds.  The
defaults are the C++ value-initialized fields (a default
`system_clock::time_point` is the epoch). -/
structure GitCommit where
  hash : Str := []
  shortHash : Str := []
  author : Str := []
  email : Str := []
  message : Str := []
  shortMessage : Str := []
  timestamp : Int := 0
  parentHashes : List Str := []

/-- Whitespace recognized by `std::stoll`'s leading-whitespace skip. -/
def isSpaceChar (c : Char) : Bool :=
  c = ' ' || c = '\t' || c = '\n' || c = Char.ofNat 11 || c = Char.ofNat 12 || c = '\r'

/-- Numeric value of a decimal digit string. -/
def decValue (ds : Str) : Nat := ds.foldl (fun a c => 10 * a + (c.toNat - 48)) 0

/-- The digit-prefix step of `std::stoll`: the maximal decimal prefix, or
`none` when there is no digit (which makes `stoll` throw). -/
def digitsValue (u : Str) : Option Nat :=
  let ds := u.takeWhile Char.isDigit
  if ds = [] then none else some (decValue ds)

/-- Model of `std::stoll` as used on the epoch field of a log record
(GitManager.cpp line 404): skip leading whitespace, optional sign, then the
maximal run of decimal digits; `none` models the exception taken when no
digit is found.  (Overflow, which also throws in C++, is not modelled: Lean
integers are unbounded.) -/
def stollQ (s : Str) : Option Int :=
  match s.dropWhile isSpaceChar with
  | '-' :: rest => (digitsValue rest).map (fun n => -(n : Int))
  | '+' :: rest => (digitsValue rest).map (fun n => (n : Int))
  | t => (digitsValue t).map (fun n => (n : Int))

/-- `GitManager::parseCommit` (GitManager.cpp lines 388-416): split the
record on `|`; fewer than 7 fields yields the value-initialized commit;
otherwise the first seven fields are copied (the subject doubles as the
message), the epoch field is parsed with current-time fallback `now`, and a
nonempty parent field is split on spaces. -/
def parseCommit (now : Int) (commitData : Str) : GitCommit :=
  let parts := split commitData pipeDelim
  if parts.length < 7 then {}
  else
    { hash := parts[0]!
      shortHash := parts[1]!
      author := parts[2]!
      email := parts[3]!
      shortMessage := parts[4]!
      message := parts[4]!
      timestamp := (stollQ parts[5]!).getD now
      parentHashes := if parts[6]! = [] then [] else split parts[6]! spaceDelim }

/-- The decoding loop of `GitManager::getCommitHistory` (GitManager.cpp lines
337-347): split the raw output on single NUL bytes and push `parseCommit` of
every nonempty block. -/
def parseCommitHistory (now : Int) (output : Str) : List GitCommit :=
  (split output nulDelim).foldl
    (fun acc block => if block = [] then acc else acc ++ [parseCommit now block]) []

/-! ## Command dispatcher (`GitManager::executeGitCommand`, both variants) -/

/-- `GitCommandResult` from GitManager.h. -/
inductive GitCommandResult
  | Success | Failed | NotFound | InvalidRepository | NetworkError | PermissionDenied | Cancelled

/-- `SystemCommandResult` from SystemCommand.h: raw exit code plus captured
stdout and stderr. -/
structure SystemCommandResult where
  exitCode : Int
  output : Str
  error : Str

/-- `GitOperationResult` from GitManager.h. -/
structure GitOperationResult where
  result : GitCommandResult
  output : Str
  error : Str
  exitCode : Int := 0

/-- The classification step of the argument-vector dispatcher
`GitManager::executeGitCommand` (GitManager.cpp lines 369-378): exit code 0
is `Success`; a nonzero exit whose captured stdout contains the marker is
`InvalidRepository`; every other nonzero exit (the dead 128 special case
included) is `Failed`. -/
def classifyExit (exitCode : Int) (output : Str) : GitCommandResult :=
  if exitCode = 0 then .Success
  else if containsSub output notARepoMarker then .InvalidRepository
  else if exitCode = 128 then .Failed
  else .Failed

/-- The argument-vector dispatcher's result assembly (GitManager.cpp line
380). -/
def executeGitCommandResult (r : SystemCommandResult) : GitOperationResult :=
  { result := classifyExit r.exitCode r.output
    output := r.output
    error := r.error
    exitCode := r.exitCode }

/-- The classification performed by the string-command dispatcher
`GitManager::Impl::executeGitCommand` (GitManager.cpp line 49): exit code 0
is `Success` and everything else is `Failed`; no marker inspection at all. -/
def implClassifyExit (exitCode : Int) : GitCommandResult :=
  if exitCode = 0 then .Success else .Failed

/-! ## Domain facade state (`GitManager::addFiles` / `removeFiles`) -/

/-- The mutable fields of `GitManager::Impl` relevant to the facade
operations. -/
structure ManagerState where
  repositoryPath : Str := []
  lastError : Str := []

/-- The external process, abstracted: what `SystemCommand::execute` returns
for a given argument vector. -/
structure ExecOracle where
  run : List Str → SystemCommandResult

/-- `GitManager::executeGitCommand(args, ...)` (GitManager.cpp lines
360-381) as a state transformer: spawns exactly one external invocation
(recorded in the returned trace) and does not touch `lastError` (only the
string-command `Impl` variant does). -/
def executeGitCommandArgs (w : ExecOracle) (st : ManagerState) (args : List Str) :
    GitOperationResult × ManagerState × List (List Str) :=
  (executeGitCommandResult (w.run args), st, [args])

/-- `GitManager::addFiles` (GitManager.cpp lines 236-245): an empty file
list short-circuits to `{Success, "", "", 0}`; otherwise `git add` runs with
the files appended. -/
def addFiles (w : ExecOracle) (st : ManagerState) (files : List Str) :
    GitOperationResult × ManagerState × List (List Str) :=
  if files = [] then
    ({ result := .Success, output := [], error := [], exitCode := 0 }, st, [])
  else
    executeGitCommandArgs w st (("add").toList :: files)

/-- `GitManager::removeFiles` (GitManager.cpp lines 251-263): an empty file
list short-circuits to `{Success, "", "", 0}`; otherwise `git rm`
(optionally `--cached`) runs with the files appended. -/
def removeFiles (w : ExecOracle) (st : ManagerState) (cached : Bool) (files : List Str) :
    GitOperationResult × ManagerState × List (List Str) :=
  if files = [] then
    ({ result := .Success, output := [], error := [], exitCode := 0 }, st, [])
  else
    executeGitCommandArgs w st
      (("rm").toList :: ((if cached then [("--cached").toList] else []) ++ files))

/-! ## Process executor environment overrides (`SystemCommand`) -/

/-- The mutable state of `SystemCommand::Impl` relevant to environment
overrides: the `std::map` of overrides is modelled as a partial map. -/
structure SystemCommandState where
  environmentVariables : Str → Option Str := fun _ => none
  timeoutMs : Int := 30000
  cancelled : Bool := false

/-- `SystemCommand::setEnvironmentVariable` (SystemCommand.cpp lines
347-349): `environmentVariables[name] = value`. -/
def setEnvironmentVariable (st : SystemCommandState) (k v : Str) : SystemCommandState :=
  { st with environmentVariables := fun key =>
      if key = k then some v else st.environmentVariables key }

/-- `SystemCommand::clearEnvironmentVariables` (SystemCommand.cpp lines
351-353). -/
def clearEnvironmentVariables (st : SystemCommandState) : SystemCommandState :=
  { st with environmentVariables := fun _ => none }

/-- `SystemCommand::execute` (SystemCommand.cpp lines 64-73, Unix path lines
176-304): resets the cancellation flag and spawns a child that applies every
entry of the override map via `setenv` (lines 210-214).  The first component
is the override map the child observed; the map itself is not modified by the
invocation. -/
def executeEnv (st : SystemCommandState) : (Str → Option Str) × SystemCommandState :=
  (st.environmentVariables, { st with cancelled := false })

/-! ## Diff decoder (`GitManager::getCommitDiff` / `getCommitDiffAll`) -/

/-- `GitDiffLine::Type` from GitTypes.h. -/
inductive DiffLineType
  | Context | Addition | Deletion | Header

/-- `GitDiffLine` from GitTypes.h; the line-number fields default to `-1`
("not populated"). -/
structure GitDiffLine where
  type : DiffLineType := .Context
  content : Str := []
  oldLineNumber : Int := -1
  newLineNumber : Int := -1

/-- `GitDiffHunk` from GitTypes.h. -/
structure GitDiffHunk where
  header : Str := []
  lines : List GitDiffLine := []
  oldStart : Int := 0
  oldCount : Int := 0
  newStart : Int := 0
  newCount : Int := 0

/-- Maximal digit run at the head of a string and the remainder: the `\d+`
step of the hunk-header pattern. -/
def takeDigits (s : Str) : Str × Str := (s.takeWhile Char.isDigit, s.dropWhile Char.isDigit)

/-- Attempt of the hunk-header pattern
`@@ -(\d+)(?:,(\d+))? \+(\d+)(?:,(\d+))? @@` at the head of `s`, the way
`std::regex_search` tries each position: literal `"@@ -"`, digits, an
optional `,digits` group, literal `" +"`, digits, an optional `,digits`
group, literal `" @@"`.  Each `\d+` is a maximal munch (the following
literal is never a digit, so no backtracking arises); `none` in a count slot
is an absent optional group. -/
def matchHunkAt (s : Str) : Option (Nat × Option Nat × Nat × Option Nat) :=
  match s with
  | '@' :: '@' :: ' ' :: '-' :: t =>
    let p1 := takeDigits t
    if p1.1 = [] then none else
    let step1 : Option (Option Nat × Str) :=
      match p1.2 with
      | ',' :: u =>
        let p2 := takeDigits u
        if p2.1 = [] then none else some (some (decValue p2.1), p2.2)
      | _ => some (none, p1.2)
    match step1 with
    | none => none
    | some (oc, t2) =>
      match t2 with
      | ' ' :: '+' :: t3 =>
        let p3 := takeDigits t3
        if p3.1 = [] then none else
        let step2 : Option (Option Nat × Str) :=
          match p3.2 with
          | ',' :: u =>
            let p4 := takeDigits u
            if p4.1 = [] then none else some (some (decValue p4.1), p4.2)
          | _ => some (none, p3.2)
        match step2 with
        | none => none
        | some (nc, t5) =>
          match t5 with
          | ' ' :: '@' :: '@' :: _ => some (decValue p1.1, oc, decValue p3.1, nc)
          | _ => none
      | _ => none
  | _ => none

/-- `std::regex_search` over the whole line: the pattern is tried at every
position, first hit wins. -/
def searchHunkHeader : Str → Option (Nat × Option Nat × Nat × Option Nat)
  | [] => none
  | c :: rest =>
    match matchHunkAt (c :: rest) with
    | some r => some r
    | none => searchHunkHeader rest

/-- The line-classification chain shared by `getCommitDiff` (lines 787-801,
`withNums = false`: no line numbers are assigned) and `getCommitDiffAll`
(lines 882-900, `withNums = true`: the running counters are consumed and
advanced).  First match on the leading character wins, so the `"+++"` and
`"---"` disjuncts of the header test are dead: such lines are consumed by
the `'+'`/`'-'` branches.  `none` means the line is skipped. -/
def classifyDiffLine (withNums : Bool) (o n : Int) : Str → Option (GitDiffLine × Int × Int)
  | [] => none
  | c :: rest =>
    if c = '+' then
      some ({ type := .Addition, content := rest, oldLineNumber := -1
              newLineNumber := if withNums then n else -1 },
            o, if withNums then n + 1 else n)
    else if c = '-' then
      some ({ type := .Deletion, content := rest
              oldLineNumber := if withNums then o else -1, newLineNumber := -1 },
            if withNums then o + 1 else o, n)
    else if c = ' ' then
      some ({ type := .Context, content := rest
              oldLineNumber := if withNums then o else -1
              newLineNumber := if withNums then n else -1 },
            (if withNums then o + 1 else o), if withNums then n + 1 else n)
    else if (c :: rest).take 4 = ("diff").toList ∨ (c :: rest).take 5 = ("index").toList
         ∨ (c :: rest).take 3 = ['+', '+', '+'] ∨ (c :: rest).take 3 = ['-', '-', '-'] then
      some ({ type := .Header, content := c :: rest, oldLineNumber := -1, newLineNumber := -1 },
            o, n)
    else none

/-- `currentHunk->lines.push_back(diffLine)`: the classified line is appended
to the most recently opened hunk. -/
def appendToLast : List GitDiffHunk → GitDiffLine → List GitDiffHunk
  | [], _ => []
  | [h], l => [{ h with lines := h.lines ++ [l] }]
  | h :: hs, l => h :: appendToLast hs l

/-- One iteration of the diff line loop (GitManager.cpp lines 768-805 and
861-904): empty lines are skipped; a line whose first two characters are
`"@@"` is searched for the hunk pattern and, on a hit, opens a new hunk
(resetting the counters to the parsed starts, with absent counts defaulting
to 1); before the first hunk every other line is skipped; otherwise the line
is classified and appended to the current hunk. -/
def diffLineStep (withNums : Bool) :
    List GitDiffHunk × Int × Int → Str → List GitDiffHunk × Int × Int
  | (hunks, o, n), line =>
    if line = [] then (hunks, o, n)
    else if line.take 2 = ['@', '@'] then
      match searchHunkHeader line with
      | some (os, oc, ns, nc) =>
        (hunks ++ [{ header := line, lines := []
                     oldStart := (os : Int), oldCount := ((oc.getD 1 : Nat) : Int)
                     newStart := (ns : Int), newCount := ((nc.getD 1 : Nat) : Int) }],
         (os : Int), (ns : Int))
      | none => (hunks, o, n)
    else if hunks.isEmpty then (hunks, o, n)
    else
      match classifyDiffLine withNums o n line with
      | some (dl, o2, n2) => (appendToLast hunks dl, o2, n2)
      | none => (hunks, o, n)

/-- The hunk-parsing loop over the lines of one file's diff text; the
counters start at 0 (`int oldLineNum = 0, newLineNum = 0;`). -/
def parseDiffHunks (withNums : Bool) (lines : List Str) : List GitDiffHunk :=
  (lines.foldl (diffLineStep withNums) ([], 0, 0)).1

/-! ### The numbering discipline the hunks are claimed to satisfy -/

/-- How one classified line advances the (old, new) counters. -/
def numberedNext (o n : Int) (l : GitDiffLine) : Int × Int :=
  match l.type with
  | .Addition => (o, n + 1)
  | .Deletion => (o + 1, n)
  | .Context => (o + 1, n + 1)
  | .Header => (o, n)

/-- Which line-number fields a line carries when the counters stand at
(o, n): Addition only the new number, Deletion only the old, Context both,
Header neither. -/
def carriesNums (o n : Int) (l : GitDiffLine) : Bool :=
  match l.type with
  | .Addition => l.oldLineNumber = -1 && l.newLineNumber = n
  | .Deletion => l.oldLineNumber = o && l.newLineNumber = -1
  | .Context => l.oldLineNumber = o && l.newLineNumber = n
  | .Header => l.oldLineNumber = -1 && l.newLineNumber = -1

/-- The numbering discipline for a whole hunk body, counters threaded from
(o, n). -/
def linesNumbered : Int → Int → List GitDiffLine → Bool
  | _, _, [] => true
  | o, n, l :: ls =>
    carriesNums o n l && linesNumbered (numberedNext o n l).1 (numberedNext o n l).2 ls

/-- Where the counters stand after a hunk body. -/
def threadLines (o n : Int) (ls : List GitDiffLine) : Int × Int :=
  ls.foldl (fun p l => numberedNext p.1 p.2 l) (o, n)

/-! ## Lemmas about string scanning and splitting -/

theorem headOccur_decomp {s pat : Str} (h : headOccur s pat = true) :
    s = pat ++ s.drop pat.length := by
  unfold headOccur at h
  have ht : s.take pat.length = pat := eq_of_beq h
  conv_lhs => rw [← List.take_append_drop pat.length s]
  rw [ht]

theorem strFind_decomp : ∀ {s pat : Str} {i : Nat}, strFind s pat = some i →
    s = s.take i ++ pat ++ s.drop (i + pat.length) := by
  intro s
  induction s with
  | nil =>
    intro pat i h
    unfold strFind at h
    cases hp : headOccur [] pat with
    | true =>
      rw [hp, if_pos rfl] at h
      cases h
      simpa using headOccur_decomp hp
    | false =>
      rw [hp] at h
      simp at h
  | cons c rest ih =>
    intro pat i h
    unfold strFind at h
    cases hp : headOccur (c :: rest) pat with
    | true =>
      rw [hp, if_pos rfl] at h
      cases h
      simpa using headOccur_decomp hp
    | false =>
      rw [hp] at h
      simp only [Bool.false_eq_true, if_false, Option.map_eq_some'] at h
      obtain ⟨j, hj, rfl⟩ := h
      have hrest := ih hj
      have htake : (c :: rest).take (j + 1) = c :: rest.take j := rfl
      have hdrop : (c :: rest).drop (j + 1 + pat.length) = rest.drop (j + pat.length) := by
        have harith : j + 1 + pat.length = (j + pat.length) + 1 := by omega
        rw [harith]
        rfl
      rw [htake, hdrop]
      calc c :: rest = c :: (rest.take j ++ pat ++ rest.drop (j + pat.length)) := by rw [← hrest]
        _ = c :: rest.take j ++ pat ++ rest.drop (j + pat.length) := by simp

theorem strFind_le : ∀ {s pat : Str} {i : Nat}, strFind s pat = some i →
    i + pat.length ≤ s.length := by
  intro s
  induction s with
  | nil =>
    intro pat i h
    unfold strFind at h
    cases hp : headOccur [] pat with
    | true =>
      rw [hp, if_pos rfl] at h
      cases h
      have hdec := headOccur_decomp hp
      have hlen := congrArg List.length hdec
      simp at hlen
      omega
    | false => rw [hp] at h; simp at h
  | cons c rest ih =>
    intro pat i h
    unfold strFind at h
    cases hp : headOccur (c :: rest) pat with
    | true =>
      rw [hp, if_pos rfl] at h
      cases h
      have hdec := headOccur_decomp hp
      have hlen := congrArg List.length hdec
      simp only [List.length_append] at hlen
      omega
    | false =>
      rw [hp] at h
      simp only [Bool.false_eq_true, if_false, Option.map_eq_some'] at h
      obtain ⟨j, hj, rfl⟩ := h
      have := ih hj
      simp only [List.length_cons]
      omega

theorem splitFuel_ne_nil (d : Str) (fuel : Nat) (s : Str) : splitFuel d fuel s ≠ [] := by
  cases fuel with
  | zero => simp [splitFuel]
  | succ n =>
    unfold splitFuel
    cases strFind s d <;> simp

theorem joinFold_append (d : Str) (ps : List Str) : ∀ p q : Str,
    List.foldl (fun acc x => acc ++ (d ++ x)) (p ++ q) ps =
      p ++ List.foldl (fun acc x => acc ++ (d ++ x)) q ps := by
  induction ps with
  | nil => intro p q; rfl
  | cons x xs ih =>
    intro p q
    simp only [List.foldl_cons]
    rw [List.append_assoc]
    exact ih p (q ++ (d ++ x))

theorem join_cons_cons (d p x : Str) (xs : List Str) :
    join (p :: x :: xs) d = p ++ d ++ join (x :: xs) d := by
  show List.foldl (fun acc y => acc ++ (d ++ y)) (p ++ (d ++ x)) xs = _
  rw [show p ++ (d ++ x) = (p ++ d) ++ x by simp [List.append_assoc]]
  rw [joinFold_append d xs (p ++ d) x]
  rfl

theorem join_splitFuel (d : Str) (hd : d ≠ []) :
    ∀ (fuel : Nat) (s : Str), s.length ≤ fuel → join (splitFuel d fuel s) d = s := by
  intro fuel
  induction fuel with
  | zero => intro s _; rfl
  | succ fuel ih =>
    intro s hs
    unfold splitFuel
    cases hf : strFind s d with
    | none => rfl
    | some i =>
      show join (s.take i :: splitFuel d fuel (s.drop (i + d.length))) d = s
      have hdec := strFind_decomp hf
      have hle := strFind_le hf
      have hdl : 1 ≤ d.length := by
        cases d with
        | nil => exact absurd rfl hd
        | cons a b => simp
      have hlen : (s.drop (i + d.length)).length ≤ fuel := by
        rw [List.length_drop]
        omega
      obtain ⟨x, xs, hx⟩ : ∃ x xs, splitFuel d fuel (s.drop (i + d.length)) = x :: xs := by
        cases hxx : splitFuel d fuel (s.drop (i + d.length)) with
        | nil => exact absurd hxx (splitFuel_ne_nil d fuel _)
        | cons x xs => exact ⟨x, xs, rfl⟩
      rw [hx, join_cons_cons, ← hx, ih _ hlen]
      exact hdec.symm

/-- Round trip of the field-split step: rejoining the split parts with the
same nonempty delimiter reproduces the original string. -/
theorem join_split (s d : Str) (hd : d ≠ []) : join (split s d) d = s :=
  join_splitFuel d hd s.length s (Nat.le_refl _)

theorem splitFuel_head (d : Str) (fuel : Nat) (s : Str) :
    ∀ p ps, splitFuel d fuel s = p :: ps → ∃ t, s = p ++ t := by
  cases fuel with
  | zero =>
    intro p ps h
    have hp : p = s := by
      have := congrArg (·.headD []) h
      simpa [splitFuel] using this.symm
    exact ⟨[], by simp [hp]⟩
  | succ n =>
    intro p ps h
    unfold splitFuel at h
    cases hf : strFind s d with
    | none =>
      rw [hf] at h
      have hp : p = s := by
        have := congrArg (·.headD []) h
        simpa using this.symm
      exact ⟨[], by simp [hp]⟩
    | some i =>
      rw [hf] at h
      have hp : p = s.take i := by
        have := congrArg (·.headD []) h
        simpa using this.symm
      exact ⟨s.drop i, by rw [hp]; exact (List.take_append_drop i s).symm⟩

theorem splitFuel_singleton (d : Str) : ∀ (fuel : Nat) (s b : Str),
    splitFuel d fuel s = [b] → b = s := by
  intro fuel
  cases fuel with
  | zero => intro s b h; simpa [splitFuel] using h.symm
  | succ n =>
    intro s b h
    unfold splitFuel at h
    cases hf : strFind s d with
    | none =>
      rw [hf] at h
      simpa using h.symm
    | some i =>
      rw [hf] at h
      have htail : splitFuel d n (s.drop (i + d.length)) = [] := by
        have := congrArg List.tail h
        simpa using this
      exact absurd htail (splitFuel_ne_nil d n _)

theorem splitFuel_pair (d : Str) : ∀ (fuel : Nat) (s a b : Str),
    splitFuel d fuel s = [a, b] → s = a ++ d ++ b := by
  intro fuel
  cases fuel with
  | zero => intro s a b h; simp [splitFuel] at h
  | succ n =>
    intro s a b h
    unfold splitFuel at h
    cases hf : strFind s d with
    | none => rw [hf] at h; simp at h
    | some i =>
      rw [hf] at h
      have ha : s.take i = a := by
        have := congrArg (·.headD []) h
        simpa using this
      have hb : splitFuel d n (s.drop (i + d.length)) = [b] := by
        have := congrArg List.tail h
        simpa using this
      have hbs := splitFuel_singleton d n _ b hb
      have hdec := strFind_decomp hf
      rw [← ha, hbs]
      exact hdec

/-- When the split has exactly two parts, they are the text before and after
the unique relevant occurrence of the delimiter. -/
theorem split_pair {s d a b : Str} (h : split s d = [a, b]) : s = a ++ d ++ b :=
  splitFuel_pair d s.length s a b h

/-! ## Lemmas about the status-decoder fold -/

theorem statusFold_spec (ls : List Str) : ∀ st : GitStatus,
    (ls.foldl statusStep st).changes
      = st.changes ++ ((ls.filter fun l => decide (3 ≤ l.length)).map parseFileChange)
    ∧ (ls.foldl statusStep st).hasUncommittedChanges
      = (st.hasUncommittedChanges ||
          ((ls.filter fun l => decide (3 ≤ l.length)).map parseFileChange).any
            fun c => decide (c.status ≠ .Ignored))
    ∧ (ls.foldl statusStep st).hasStagedChanges
      = (st.hasStagedChanges ||
          ((ls.filter fun l => decide (3 ≤ l.length)).map parseFileChange).any
            fun c => c.isStaged)
    ∧ (ls.foldl statusStep st).hasUnstagedChanges
      = (st.hasUnstagedChanges ||
          ((ls.filter fun l => decide (3 ≤ l.length)).map parseFileChange).any
            fun c => !c.isStaged && decide (c.status ≠ .Untracked)) := by
  induction ls with
  | nil => intro st; simp
  | cons l ls ih =>
    intro st
    by_cases hl : 3 ≤ l.length
    · have hstep : statusStep st l =
        { changes := st.changes ++ [parseFileChange l]
          hasUncommittedChanges := st.hasUncommittedChanges ||
            decide ((parseFileChange l).status ≠ .Ignored)
          hasStagedChanges := st.hasStagedChanges || (parseFileChange l).isStaged
          hasUnstagedChanges := st.hasUnstagedChanges ||
            (!(parseFileChange l).isStaged &&
              decide ((parseFileChange l).status ≠ .Untracked)) } := by
        simp [statusStep, hl]
      obtain ⟨ih1, ih2, ih3, ih4⟩ := ih (statusStep st l)
      rw [List.foldl_cons] at *
      refine ⟨?_, ?_, ?_, ?_⟩
      · rw [ih1, hstep]
        simp [hl]
      · rw [ih2, hstep]
        simp [hl, Bool.or_assoc]
      · rw [ih3, hstep]
        simp [hl, Bool.or_assoc]
      · rw [ih4, hstep]
        simp [hl, Bool.or_assoc]
    · have hstep : statusStep st l = st := by simp [statusStep, hl]
      obtain ⟨ih1, ih2, ih3, ih4⟩ := ih st
      refine ⟨?_, ?_, ?_, ?_⟩ <;>
        rw [List.foldl_cons, hstep] <;> simp [hl, ih1, ih2, ih3, ih4]

/-! ## Lemma about the log-decoder fold -/

theorem commitFold_spec (now : Int) (blocks : List Str) : ∀ acc : List GitCommit,
    blocks.foldl (fun acc block => if block = [] then acc else acc ++ [parseCommit now block]) acc
      = acc ++ ((blocks.filter fun b => decide (b ≠ [])).map (parseCommit now)) := by
  induction blocks with
  | nil => intro acc; simp
  | cons b bs ih =>
    intro acc
    by_cases hb : b = []
    · subst hb
      simp [ih]
    · rw [List.foldl_cons, if_neg hb, ih]
      simp [hb]

/-! ## Claim theorems -/

/-- Claim C1, counterexample: the classification looks for the
`"not a git repository"` marker only in the captured stdout.  With exit code
1, empty stdout and the marker in stderr, the combined output contains the
marker, yet the category is `Failed`, not `InvalidTarget` as the claim
requires. -/
theorem executeGitCommand_stderr_marker_counterexample :
    containsSub ([] ++ ("fatal: not a git repository").toList) notARepoMarker = true
    ∧ (executeGitCommandResult
        { exitCode := 1, output := [], error := ("fatal: not a git repository").toList }).result
      = .Failed :=
  ⟨rfl, rfl⟩

/-- Claim C1, amended: the category is `Success` exactly when the exit code
is 0; on a nonzero exit the argument-vector dispatcher returns
`InvalidRepository` exactly when the marker occurs in the captured **stdout**
(stderr is never inspected) and `Failed` otherwise; the string-command
dispatcher variant classifies every nonzero exit as `Failed` without any
marker check. -/
theorem executeGitCommand_classification_amended (r : SystemCommandResult) :
    ((executeGitCommandResult r).result = .Success ↔ r.exitCode = 0)
    ∧ (r.exitCode ≠ 0 → containsSub r.output notARepoMarker = true →
        (executeGitCommandResult r).result = .InvalidRepository)
    ∧ (r.exitCode ≠ 0 → containsSub r.output notARepoMarker = false →
        (executeGitCommandResult r).result = .Failed)
    ∧ (r.exitCode ≠ 0 → implClassifyExit r.exitCode = .Failed) := by
  unfold executeGitCommandResult classifyExit implClassifyExit
  refine ⟨?_, ?_, ?_, ?_⟩ <;> split_ifs <;> simp_all

/-- Witness for the amended C1 classification at concrete results: exit code
1 with the marker in stdout is `InvalidRepository`; exit code 1 with empty
stdout is `Failed`; the string-command variant gives `Failed` for exit
code 1. -/
theorem executeGitCommand_classification_witness :
    (executeGitCommandResult
        { exitCode := 1, output := ("fatal: not a git repository").toList, error := [] }).result
      = .InvalidRepository
    ∧ (executeGitCommandResult { exitCode := 1, output := [], error := [] }).result = .Failed
    ∧ implClassifyExit 1 = .Failed :=
  ⟨(executeGitCommand_classification_amended
      { exitCode := 1, output := ("fatal: not a git repository").toList, error := [] }).2.1
      (by decide) (by decide),
   (executeGitCommand_classification_amended
      { exitCode := 1, output := [], error := [] }).2.2.1 (by decide) (by decide),
   (executeGitCommand_classification_amended
      { exitCode := 1, output := [], error := [] }).2.2.2 (by decide)⟩

/-- Claim C2, counterexample: the input `"a|b"` is a single nonempty record
with only 2 `|`-fields, yet the decoder returns a one-element list (the
value-initialized commit), not the empty list the claim requires. -/
theorem parseCommitHistory_short_record_counterexample :
    split ['a', '|', 'b'] nulDelim = [['a', '|', 'b']]
    ∧ (split ['a', '|', 'b'] pipeDelim).length = 2
    ∧ parseCommitHistory 0 ['a', '|', 'b'] = [{}] :=
  ⟨rfl, rfl, rfl⟩

/-- Claim C2, amended: the input is split into records on single NUL bytes;
empty records contribute nothing, and every nonempty record contributes
exactly one element — a record with fewer than 7 `|`-fields contributes the
value-initialized (all-empty) Revision Record rather than being dropped. -/
theorem parseCommitHistory_short_record_amended (now : Int) :
    (∀ output : Str, parseCommitHistory now output
        = ((split output nulDelim).filter fun b => decide (b ≠ [])).map (parseCommit now))
    ∧ ∀ block : Str, (split block pipeDelim).length < 7 → parseCommit now block = {} := by
  constructor
  · intro output
    unfold parseCommitHistory
    exact commitFold_spec now (split output nulDelim) []
  · intro block h
    unfold parseCommit
    rw [if_pos h]

/-- Witness for the amended C2 at the concrete record `"a|b"`: it has fewer
than 7 fields and decodes to the value-initialized commit. -/
theorem parseCommitHistory_short_record_witness :
    parseCommit 0 ['a', '|', 'b'] = {} :=
  (parseCommitHistory_short_record_amended 0).2 ['a', '|', 'b'] (by decide)

/-- Claim C3: in every decoded status report, `hasUncommittedChanges` holds
iff some decoded change has a status other than `Ignored` (Untracked
included), `hasUnstagedChanges` holds iff some change is unstaged with a
status other than `Untracked`, and `hasStagedChanges` holds iff some change
is staged. -/
theorem getStatus_flags_iff (lines : List Str) :
    ((parseStatusChanges lines).hasUncommittedChanges = true ↔
      ∃ c ∈ (parseStatusChanges lines).changes, c.status ≠ .Ignored)
    ∧ ((parseStatusChanges lines).hasUnstagedChanges = true ↔
      ∃ c ∈ (parseStatusChanges lines).changes, c.isStaged = false ∧ c.status ≠ .Untracked)
    ∧ ((parseStatusChanges lines).hasStagedChanges = true ↔
      ∃ c ∈ (parseStatusChanges lines).changes, c.isStaged = true) := by
  obtain ⟨h1, h2, h3, h4⟩ := statusFold_spec (lines.drop 1) {}
  unfold parseStatusChanges
  rw [h1, h2, h3, h4]
  simp only [List.nil_append, Bool.false_or, List.any_eq_true, decide_eq_true_eq,
    Bool.and_eq_true, Bool.not_eq_true']
  exact ⟨trivial, trivial, trivial⟩

/-- Claim C10: the status-line decoder is total — an input shorter than 3
characters decodes to the value-initialized change record (empty paths,
`Untracked`, unstaged), and the `getStatus` loop skips such lines entirely,
so the decoded change list consists exactly of the decodes of the
length-≥-3 lines after the branch-header line. -/
theorem parseFileChange_total_short_lines :
    (∀ line : Str, line.length < 3 → parseFileChange line = {})
    ∧ ∀ lines : List Str, (parseStatusChanges lines).changes
        = ((lines.drop 1).filter fun l => decide (3 ≤ l.length)).map parseFileChange := by
  constructor
  · intro line h
    match line with
    | [] => rfl
    | [_] => rfl
    | [_, _] => rfl
    | _ :: _ :: _ :: _ => simp at h; omega
  · intro lines
    have h := (statusFold_spec (lines.drop 1) {}).1
    unfold parseStatusChanges
    rw [h]
    simp

/-- Witness for C10 at the concrete two-character line `"M "`: it decodes to
the value-initialized record, and a report consisting of a header line and
that short line decodes to no change records. -/
theorem parseFileChange_total_short_lines_witness :
    parseFileChange ['M', ' '] = {}
    ∧ (parseStatusChanges [("## main").toList, ['M', ' ']]).changes
        = (([("## main").toList, ['M', ' ']].drop 1).filter
            fun l => decide (3 ≤ l.length)).map parseFileChange :=
  ⟨parseFileChange_total_short_lines.1 ['M', ' '] (by decide),
   parseFileChange_total_short_lines.2 [("## main").toList, ['M', ' ']]⟩

theorem flagStatus_eq_spec (c0 c1 : Char) :
    flagStatus c0 c1 = (specFlagDecision c0 c1).getD (.Untracked, false) := by
  unfold flagStatus specFlagDecision
  by_cases h1 : c0 = '?' ∧ c1 = '?'
  · rw [if_pos h1, if_pos h1]; rfl
  rw [if_neg h1, if_neg h1]
  by_cases h2 : c0 = '!' ∧ c1 = '!'
  · rw [if_pos h2, if_pos h2]; rfl
  rw [if_neg h2, if_neg h2]
  by_cases h3 : c0 = 'A'
  · rw [if_pos h3, if_pos h3]; rfl
  rw [if_neg h3, if_neg h3]
  by_cases h4 : c0 = 'M'
  · rw [if_pos h4, if_pos h4]; rfl
  rw [if_neg h4, if_neg h4]
  by_cases h5 : c0 = 'D'
  · rw [if_pos h5, if_pos h5]; rfl
  rw [if_neg h5, if_neg h5]
  by_cases h6 : c0 = 'R'
  · rw [if_pos h6, if_pos h6]; rfl
  rw [if_neg h6, if_neg h6]
  by_cases h7 : c0 = 'C'
  · rw [if_pos h7, if_pos h7]; rfl
  rw [if_neg h7, if_neg h7]
  by_cases h8 : c1 = 'M'
  · rw [if_pos h8, if_pos h8]; rfl
  rw [if_neg h8, if_neg h8]
  by_cases h9 : c1 = 'D'
  · rw [if_pos h9, if_pos h9]; rfl
  rw [if_neg h9, if_neg h9]
  by_cases h10 : c1 = 'U' ∨ c0 = 'U'
  · rw [if_pos h10, if_pos h10]; rfl
  rw [if_neg h10, if_neg h10]
  by_cases h11 : c1 = 'A'
  · rw [if_pos h11, if_pos h11]; rfl
  rw [if_neg h11, if_neg h11]; rfl

/-- Claim C4: on every status line of length ≥ 3, whenever the
specification's flag-pair precedence table (`??` Untracked, `!!` Ignored,
staged-column A/M/D/R/C staged, else unstaged-column M/D unstaged, else
either column `U` Conflicted, else unstaged `A`) determines a (status,
staged) pair, the decoder returns exactly that pair. -/
theorem parseFileChange_flag_precedence (c0 c1 c2 : Char) (rest : Str)
    (s : FileStatus) (stg : Bool) (h : specFlagDecision c0 c1 = some (s, stg)) :
    (parseFileChange (c0 :: c1 :: c2 :: rest)).status = s
    ∧ (parseFileChange (c0 :: c1 :: c2 :: rest)).isStaged = stg := by
  have hf : flagStatus c0 c1 = (s, stg) := by
    rw [flagStatus_eq_spec, h]
    rfl
  simp [parseFileChange, hf]

/-- Witness for C4 at the concrete line `"AM x"`: the staged column `A` wins
and yields Added/staged. -/
theorem parseFileChange_flag_precedence_witness :
    (parseFileChange (('A') :: ('M') :: (' ') :: ['x'])).status = .Added
    ∧ (parseFileChange (('A') :: ('M') :: (' ') :: ['x'])).isStaged = true :=
  parseFileChange_flag_precedence 'A' 'M' ' ' ['x'] .Added true (by decide)

/-- Claim C5, counterexample: the status line `"R   -> "` has length ≥ 3 and
its path part contains the token `" -> "`, yet both decoded paths are empty —
and in particular equal — contradicting the claim that the previous and
current paths are always non-empty and distinct. -/
theorem parseFileChange_rename_counterexample :
    containsSub (("R   -> ").toList.drop 3) arrowDelim = true
    ∧ (parseFileChange ("R   -> ").toList).oldPath = []
    ∧ (parseFileChange ("R   -> ").toList).filePath = []
    ∧ (parseFileChange ("R   -> ").toList).oldPath
        = (parseFileChange ("R   -> ").toList).filePath := by
  refine ⟨by decide, by decide, by decide, by decide⟩

/-- Claim C5, amended: on every status line of length ≥ 3 the decoded paths
come only from the text at offset 3 — the previous path is a prefix of it and
the current path a suffix of it, so neither ever includes the 3-character
flag+space prefix — and when the path part contains `" -> "` and splits on it
into exactly two parts, the previous and current path are those two parts
(which may be empty or equal). -/
theorem parseFileChange_path_amended (c0 c1 c2 : Char) (rest : Str) :
    (∃ t, rest = (parseFileChange (c0 :: c1 :: c2 :: rest)).oldPath ++ t)
    ∧ (∃ t, rest = t ++ (parseFileChange (c0 :: c1 :: c2 :: rest)).filePath)
    ∧ (containsSub rest arrowDelim = true → (split rest arrowDelim).length = 2 →
        (parseFileChange (c0 :: c1 :: c2 :: rest)).oldPath = (split rest arrowDelim)[0]!
        ∧ (parseFileChange (c0 :: c1 :: c2 :: rest)).filePath = (split rest arrowDelim)[1]!
        ∧ rest = (split rest arrowDelim)[0]! ++ arrowDelim ++ (split rest arrowDelim)[1]!) := by
  have hfields : (parseFileChange (c0 :: c1 :: c2 :: rest)).oldPath = (splitRenamePath rest).1
      ∧ (parseFileChange (c0 :: c1 :: c2 :: rest)).filePath = (splitRenamePath rest).2 :=
    ⟨rfl, rfl⟩
  rw [hfields.1, hfields.2]
  by_cases hc : containsSub rest arrowDelim = true
  · by_cases hl : (split rest arrowDelim).length = 2
    · obtain ⟨a, b, hab⟩ := List.length_eq_two.mp hl
      have hsp : splitRenamePath rest = (a, b) := by
        unfold splitRenamePath
        rw [if_pos hc]
        simp [hab, hl]
      have hdec := split_pair hab
      rw [hsp]
      refine ⟨⟨arrowDelim ++ b, by simpa [List.append_assoc] using hdec⟩,
              ⟨a ++ arrowDelim, hdec⟩, fun _ _ => ?_⟩
      refine ⟨by simp [hab], by simp [hab], ?_⟩
      rw [hab]
      simpa using hdec
    · have hsp : splitRenamePath rest = ([], rest) := by
        unfold splitRenamePath
        rw [if_pos hc, if_neg hl]
      rw [hsp]
      exact ⟨⟨rest, rfl⟩, ⟨[], rfl⟩, fun _ h2 => absurd h2 hl⟩
  · have hsp : splitRenamePath rest = ([], rest) := by
      unfold splitRenamePath
      rw [if_neg hc]
    rw [hsp]
    exact ⟨⟨rest, rfl⟩, ⟨[], rfl⟩, fun h1 _ => absurd h1 hc⟩

/-- Witness for the amended C5 at the concrete rename line `"R  a -> b"`:
the path part is `"a -> b"`, and the decoded previous/current paths are its
two halves `"a"` and `"b"`. -/
theorem parseFileChange_path_witness :
    (∃ t, ("a -> b").toList = (parseFileChange ("R  a -> b").toList).oldPath ++ t)
    ∧ (parseFileChange ("R  a -> b").toList).oldPath = (split (("a -> b").toList) arrowDelim)[0]!
    ∧ (parseFileChange ("R  a -> b").toList).filePath = (split (("a -> b").toList) arrowDelim)[1]! :=
  ⟨(parseFileChange_path_amended 'R' ' ' ' ' (("a -> b").toList)).1,
   ((parseFileChange_path_amended 'R' ' ' ' ' (("a -> b").toList)).2.2 (by decide) (by decide)).1,
   ((parseFileChange_path_amended 'R' ' ' ' ' (("a -> b").toList)).2.2 (by decide) (by decide)).2.1⟩

/-- Claim C6, counterexample: after one `setEnvironmentVariable` and one
invocation, a second invocation still observes the override — the override
map is never reset by `execute`, so the effect is not limited to the next
invocation as claimed. -/
theorem setEnvironmentVariable_next_only_counterexample :
    (executeEnv (executeEnv
        (setEnvironmentVariable {} (("GIT_TRACE").toList) (("1").toList))).2).1
      (("GIT_TRACE").toList) = some (("1").toList) := by
  simp [executeEnv, setEnvironmentVariable]

/-- Claim C6, amended: an environment override set on the executor persists
across invocations — it is observed by the next invocation and by every
later one — until it is removed wholesale by `clearEnvironmentVariables`. -/
theorem setEnvironmentVariable_persists_amended (st : SystemCommandState) (k v : Str) :
    (executeEnv (setEnvironmentVariable st k v)).1 k = some v
    ∧ (executeEnv (executeEnv (setEnvironmentVariable st k v)).2).1 k = some v
    ∧ ∀ key, (executeEnv (clearEnvironmentVariables st)).1 key = none := by
  refine ⟨?_, ?_, fun key => rfl⟩ <;> simp [executeEnv, setEnvironmentVariable]

/-- Claim C8: for every record that splits on `|` into exactly 7 fields,
rejoining those fields with `|` reproduces the record text exactly. -/
theorem split_join_roundTrip (s : Str) (h : (split s pipeDelim).length = 7) :
    join (split s pipeDelim) pipeDelim = s :=
  join_split s pipeDelim (by decide)

/-- Witness for C8 at the concrete 7-field record `"a|b|c|d|e|f|g"`. -/
theorem split_join_roundTrip_witness :
    (split (("a|b|c|d|e|f|g").toList) pipeDelim).length = 7
    ∧ join (split (("a|b|c|d|e|f|g").toList) pipeDelim) pipeDelim = ("a|b|c|d|e|f|g").toList :=
  ⟨by decide, split_join_roundTrip (("a|b|c|d|e|f|g").toList) (by decide)⟩

/-- Claim C9: with an empty file list, `addFiles` and `removeFiles` return
`{Success, "", "", 0}` without spawning any external invocation (empty
trace) and leave the manager state — in particular the stored last-error
text — unchanged. -/
theorem addFiles_removeFiles_empty_noop (w : ExecOracle) (st : ManagerState) (cached : Bool) :
    addFiles w st []
      = ({ result := .Success, output := [], error := [], exitCode := 0 }, st, [])
    ∧ removeFiles w st cached []
      = ({ result := .Success, output := [], error := [], exitCode := 0 }, st, [])
    ∧ (addFiles w st []).2.1.lastError = st.lastError
    ∧ (removeFiles w st cached []).2.1.lastError = st.lastError :=
  ⟨rfl, rfl, rfl, rfl⟩

/-! ## Lemmas about the diff-decoder loop -/

theorem listExistsLast {α : Type _} : ∀ {l : List α}, l ≠ [] → ∃ hs h, l = hs ++ [h] := by
  intro l
  induction l with
  | nil => intro h; exact absurd rfl h
  | cons a l ih =>
    intro _
    cases l with
    | nil => exact ⟨[], a, rfl⟩
    | cons b m =>
      obtain ⟨hs, h, hh⟩ := ih (by simp)
      exact ⟨a :: hs, h, by rw [List.cons_append, ← hh]⟩

theorem appendSingletonInj {α : Type _} {hs hs' : List α} {h h' : α}
    (heq : hs ++ [h] = hs' ++ [h']) : hs = hs' ∧ h = h' := by
  have hlen : hs.length = hs'.length := by
    have := congrArg List.length heq
    simp at this
    omega
  obtain ⟨h1, h2⟩ := List.append_inj heq hlen
  exact ⟨h1, by simpa using h2⟩

theorem appendToLast_append (hs : List GitDiffHunk) (h : GitDiffHunk) (l : GitDiffLine) :
    appendToLast (hs ++ [h]) l = hs ++ [{ h with lines := h.lines ++ [l] }] := by
  induction hs with
  | nil => rfl
  | cons a hs ih =>
    obtain ⟨q, qs, hq⟩ : ∃ q qs, hs ++ [h] = q :: qs := by
      cases hxx : hs ++ [h] with
      | nil => exact absurd hxx (by simp)
      | cons q qs => exact ⟨q, qs, rfl⟩
    calc appendToLast ((a :: hs) ++ [h]) l
        = appendToLast (a :: (q :: qs)) l := by rw [List.cons_append, hq]
      _ = a :: appendToLast (q :: qs) l := rfl
      _ = a :: appendToLast (hs ++ [h]) l := by rw [← hq]
      _ = a :: (hs ++ [{ h with lines := h.lines ++ [l] }]) := by rw [ih]
      _ = (a :: hs) ++ [{ h with lines := h.lines ++ [l] }] := by rw [List.cons_append]

theorem linesNumbered_append : ∀ (ls : List GitDiffLine) (os ns o n : Int) (l : GitDiffLine),
    linesNumbered os ns ls = true → threadLines os ns ls = (o, n) → carriesNums o n l = true →
    linesNumbered os ns (ls ++ [l]) = true
    ∧ threadLines os ns (ls ++ [l]) = numberedNext o n l := by
  intro ls
  induction ls with
  | nil =>
    intro os ns o n l _ h2 h3
    have hos : os = o ∧ ns = n := by
      have : (os, ns) = (o, n) := by simpa [threadLines] using h2
      exact ⟨congrArg Prod.fst this, congrArg Prod.snd this⟩
    obtain ⟨rfl, rfl⟩ := hos
    constructor
    · simp [linesNumbered, h3]
    · simp [threadLines]
  | cons x xs ih =>
    intro os ns o n l h1 h2 h3
    simp only [linesNumbered, Bool.and_eq_true] at h1
    obtain ⟨hx, hxs⟩ := h1
    have h2' : threadLines (numberedNext os ns x).1 (numberedNext os ns x).2 xs = (o, n) := by
      simpa [threadLines, List.foldl_cons] using h2
    obtain ⟨g1, g2⟩ := ih (numberedNext os ns x).1 (numberedNext os ns x).2 o n l hxs h2' h3
    constructor
    · rw [List.cons_append]
      simp only [linesNumbered, Bool.and_eq_true]
      exact ⟨hx, g1⟩
    · rw [List.cons_append]
      simpa [threadLines, List.foldl_cons] using g2

theorem classify_carries {o n : Int} {line : Str} {dl : GitDiffLine} {o2 n2 : Int}
    (h : classifyDiffLine true o n line = some (dl, o2, n2)) :
    carriesNums o n dl = true ∧ numberedNext o n dl = (o2, n2) := by
  cases line with
  | nil => simp [classifyDiffLine] at h
  | cons c rest =>
    simp only [classifyDiffLine] at h
    by_cases h1 : c = '+'
    · rw [if_pos h1] at h
      simp only [Option.some.injEq, Prod.mk.injEq] at h
      obtain ⟨hdl, ho, hn⟩ := h
      subst hdl
      subst ho
      subst hn
      simp [carriesNums, numberedNext]
    rw [if_neg h1] at h
    by_cases h2 : c = '-'
    · rw [if_pos h2] at h
      simp only [Option.some.injEq, Prod.mk.injEq] at h
      obtain ⟨hdl, ho, hn⟩ := h
      subst hdl
      subst ho
      subst hn
      simp [carriesNums, numberedNext]
    rw [if_neg h2] at h
    by_cases h3 : c = ' '
    · rw [if_pos h3] at h
      simp only [Option.some.injEq, Prod.mk.injEq] at h
      obtain ⟨hdl, ho, hn⟩ := h
      subst hdl
      subst ho
      subst hn
      simp [carriesNums, numberedNext]
    rw [if_neg h3] at h
    by_cases h4 : (c :: rest).take 4 = ("diff").toList ∨ (c :: rest).take 5 = ("index").toList
        ∨ (c :: rest).take 3 = ['+', '+', '+'] ∨ (c :: rest).take 3 = ['-', '-', '-']
    · rw [if_pos h4] at h
      simp only [Option.some.injEq, Prod.mk.injEq] at h
      obtain ⟨hdl, ho, hn⟩ := h
      subst hdl
      subst ho
      subst hn
      simp [carriesNums, numberedNext]
    · rw [if_neg h4] at h
      simp at h

theorem classify_noNums {o n : Int} {line : Str} {dl : GitDiffLine} {o2 n2 : Int}
    (h : classifyDiffLine false o n line = some (dl, o2, n2)) :
    dl.oldLineNumber = -1 ∧ dl.newLineNumber = -1 := by
  cases line with
  | nil => simp [classifyDiffLine] at h
  | cons c rest =>
    simp only [classifyDiffLine] at h
    by_cases h1 : c = '+'
    · rw [if_pos h1] at h
      simp only [Option.some.injEq, Prod.mk.injEq] at h
      obtain ⟨hdl, -, -⟩ := h
      subst hdl
      simp
    rw [if_neg h1] at h
    by_cases h2 : c = '-'
    · rw [if_pos h2] at h
      simp only [Option.some.injEq, Prod.mk.injEq] at h
      obtain ⟨hdl, -, -⟩ := h
      subst hdl
      simp
    rw [if_neg h2] at h
    by_cases h3 : c = ' '
    · rw [if_pos h3] at h
      simp only [Option.some.injEq, Prod.mk.injEq] at h
      obtain ⟨hdl, -, -⟩ := h
      subst hdl
      simp
    rw [if_neg h3] at h
    by_cases h4 : (c :: rest).take 4 = ("diff").toList ∨ (c :: rest).take 5 = ("index").toList
        ∨ (c :: rest).take 3 = ['+', '+', '+'] ∨ (c :: rest).take 3 = ['-', '-', '-']
    · rw [if_pos h4] at h
      simp only [Option.some.injEq, Prod.mk.injEq] at h
      obtain ⟨hdl, -, -⟩ := h
      subst hdl
      simp
    · rw [if_neg h4] at h
      simp at h

theorem diffStep_inv (line : Str) (hunks : List GitDiffHunk) (o n : Int)
    (hunks' : List GitDiffHunk) (o' n' : Int)
    (hstep : diffLineStep true (hunks, o, n) line = (hunks', o', n'))
    (h1 : ∀ h ∈ hunks, linesNumbered h.oldStart h.newStart h.lines = true)
    (h2 : ∀ hs h, hunks = hs ++ [h] → threadLines h.oldStart h.newStart h.lines = (o, n)) :
    (∀ h ∈ hunks', linesNumbered h.oldStart h.newStart h.lines = true)
    ∧ (∀ hs h, hunks' = hs ++ [h] → threadLines h.oldStart h.newStart h.lines = (o', n')) := by
  simp only [diffLineStep] at hstep
  by_cases he : line = []
  · rw [if_pos he] at hstep
    obtain ⟨rfl, rfl, rfl⟩ : hunks = hunks' ∧ o = o' ∧ n = n' := by
      simpa [Prod.ext_iff] using hstep
    exact ⟨h1, h2⟩
  rw [if_neg he] at hstep
  by_cases hat : line.take 2 = ['@', '@']
  · rw [if_pos hat] at hstep
    cases hh : searchHunkHeader line with
    | some r =>
      obtain ⟨os, oc, ns, nc⟩ := r
      rw [hh] at hstep
      simp only [Prod.mk.injEq] at hstep
      obtain ⟨hhk, ho, hn⟩ := hstep
      subst hhk
      subst ho
      subst hn
      constructor
      · intro h hmem
        rcases List.mem_append.mp hmem with hm | hm
        · exact h1 h hm
        · simp only [List.mem_singleton] at hm
          subst hm
          rfl
      · intro hs h heq
        obtain ⟨-, hlast⟩ := appendSingletonInj heq
        subst hlast
        rfl
    | none =>
      rw [hh] at hstep
      obtain ⟨rfl, rfl, rfl⟩ : hunks = hunks' ∧ o = o' ∧ n = n' := by
        simpa [Prod.ext_iff] using hstep
      exact ⟨h1, h2⟩
  rw [if_neg hat] at hstep
  by_cases hnil : hunks = []
  · rw [if_pos (by simp [hnil] : hunks.isEmpty = true)] at hstep
    obtain ⟨rfl, rfl, rfl⟩ : hunks = hunks' ∧ o = o' ∧ n = n' := by
      simpa [Prod.ext_iff] using hstep
    refine ⟨h1, fun hs h heq => ?_⟩
    rw [hnil] at heq
    exact absurd heq.symm (by simp)
  rw [if_neg (by simp [List.isEmpty_iff, hnil] : ¬hunks.isEmpty = true)] at hstep
  cases hc : classifyDiffLine true o n line with
  | none =>
    rw [hc] at hstep
    obtain ⟨rfl, rfl, rfl⟩ : hunks = hunks' ∧ o = o' ∧ n = n' := by
      simpa [Prod.ext_iff] using hstep
    exact ⟨h1, h2⟩
  | some r =>
    obtain ⟨dl, o2, n2⟩ := r
    rw [hc] at hstep
    simp only [Prod.mk.injEq] at hstep
    obtain ⟨hhk, ho, hn⟩ := hstep
    subst ho
    subst hn
    obtain ⟨hcar, hnext⟩ := classify_carries hc
    obtain ⟨hs0, h0, hsplit⟩ := listExistsLast hnil
    have hthread := h2 hs0 h0 hsplit
    have hnum0 := h1 h0 (by rw [hsplit]; simp)
    obtain ⟨g1, g2⟩ :=
      linesNumbered_append h0.lines h0.oldStart h0.newStart o n dl hnum0 hthread hcar
    rw [hsplit, appendToLast_append] at hhk
    subst hhk
    constructor
    · intro h hmem
      rcases List.mem_append.mp hmem with hm | hm
      · exact h1 h (by rw [hsplit]; exact List.mem_append.mpr (Or.inl hm))
      · simp only [List.mem_singleton] at hm
        subst hm
        exact g1
    · intro hs h heq
      obtain ⟨-, hlast⟩ := appendSingletonInj heq
      subst hlast
      rw [← hnext]
      exact g2

theorem diffFold_inv (lines : List Str) : ∀ (hunks : List GitDiffHunk) (o n : Int),
    (∀ h ∈ hunks, linesNumbered h.oldStart h.newStart h.lines = true) →
    (∀ hs h, hunks = hs ++ [h] → threadLines h.oldStart h.newStart h.lines = (o, n)) →
    ∀ h ∈ (lines.foldl (diffLineStep true) (hunks, o, n)).1,
      linesNumbered h.oldStart h.newStart h.lines = true := by
  induction lines with
  | nil => intro hunks o n h1 _ h hm; exact h1 h hm
  | cons line ls ih =>
    intro hunks o n h1 h2
    rw [List.foldl_cons]
    obtain ⟨⟨hunks', o', n'⟩, heq⟩ :
        ∃ st', diffLineStep true (hunks, o, n) line = st' := ⟨_, rfl⟩
    obtain ⟨g1, g2⟩ := diffStep_inv line hunks o n hunks' o' n' heq h1 h2
    rw [heq]
    exact ih hunks' o' n' g1 g2

theorem diffStepNoNums_inv (line : Str) (hunks : List GitDiffHunk) (o n : Int)
    (hunks' : List GitDiffHunk) (o' n' : Int)
    (hstep : diffLineStep false (hunks, o, n) line = (hunks', o', n'))
    (h1 : ∀ h ∈ hunks, ∀ l ∈ h.lines, l.oldLineNumber = -1 ∧ l.newLineNumber = -1) :
    ∀ h ∈ hunks', ∀ l ∈ h.lines, l.oldLineNumber = -1 ∧ l.newLineNumber = -1 := by
  simp only [diffLineStep] at hstep
  by_cases he : line = []
  · rw [if_pos he] at hstep
    obtain ⟨rfl, -⟩ : hunks = hunks' ∧ (o, n) = (o', n') := by
      simpa [Prod.ext_iff] using hstep
    exact h1
  rw [if_neg he] at hstep
  by_cases hat : line.take 2 = ['@', '@']
  · rw [if_pos hat] at hstep
    cases hh : searchHunkHeader line with
    | some r =>
      obtain ⟨os, oc, ns, nc⟩ := r
      rw [hh] at hstep
      simp only [Prod.mk.injEq] at hstep
      obtain ⟨hhk, -, -⟩ := hstep
      subst hhk
      intro h hmem
      rcases List.mem_append.mp hmem with hm | hm
      · exact h1 h hm
      · simp only [List.mem_singleton] at hm
        subst hm
        intro l hl
        simp at hl
    | none =>
      rw [hh] at hstep
      obtain ⟨rfl, -⟩ : hunks = hunks' ∧ (o, n) = (o', n') := by
        simpa [Prod.ext_iff] using hstep
      exact h1
  rw [if_neg hat] at hstep
  by_cases hnil : hunks = []
  · rw [if_pos (by simp [hnil] : hunks.isEmpty = true)] at hstep
    obtain ⟨rfl, -⟩ : hunks = hunks' ∧ (o, n) = (o', n') := by
      simpa [Prod.ext_iff] using hstep
    exact h1
  rw [if_neg (by simp [List.isEmpty_iff, hnil] : ¬hunks.isEmpty = true)] at hstep
  cases hc : classifyDiffLine false o n line with
  | none =>
    rw [hc] at hstep
    obtain ⟨rfl, -⟩ : hunks = hunks' ∧ (o, n) = (o', n') := by
      simpa [Prod.ext_iff] using hstep
    exact h1
  | some r =>
    obtain ⟨dl, o2, n2⟩ := r
    rw [hc] at hstep
    simp only [Prod.mk.injEq] at hstep
    obtain ⟨hhk, -, -⟩ := hstep
    obtain ⟨hdlo, hdln⟩ := classify_noNums hc
    obtain ⟨hs0, h0, hsplit⟩ := listExistsLast hnil
    rw [hsplit, appendToLast_append] at hhk
    subst hhk
    intro h hmem
    rcases List.mem_append.mp hmem with hm | hm
    · exact h1 h (by rw [hsplit]; exact List.mem_append.mpr (Or.inl hm))
    · simp only [List.mem_singleton] at hm
      subst hm
      intro l hl
      rcases List.mem_append.mp hl with hl' | hl'
      · exact h1 h0 (by rw [hsplit]; simp) l hl'
      · simp only [List.mem_singleton] at hl'
        subst hl'
        exact ⟨hdlo, hdln⟩

theorem diffFoldNoNums_inv (lines : List Str) : ∀ (hunks : List GitDiffHunk) (o n : Int),
    (∀ h ∈ hunks, ∀ l ∈ h.lines, l.oldLineNumber = -1 ∧ l.newLineNumber = -1) →
    ∀ h ∈ (lines.foldl (diffLineStep false) (hunks, o, n)).1, ∀ l ∈ h.lines,
      l.oldLineNumber = -1 ∧ l.newLineNumber = -1 := by
  induction lines with
  | nil => intro hunks o n h1 h hm; exact h1 h hm
  | cons line ls ih =>
    intro hunks o n h1
    rw [List.foldl_cons]
    obtain ⟨⟨hunks', o', n'⟩, heq⟩ :
        ∃ st', diffLineStep false (hunks, o, n) line = st' := ⟨_, rfl⟩
    have g1 := diffStepNoNums_inv line hunks o n hunks' o' n' heq h1
    rw [heq]
    exact ih hunks' o' n' g1

/-- Claim C7, counterexample: after the hunk header `"@@ -1 +1 @@"`, the line
`"+++ b/f"` — one of the four standard unified-diff preamble prefixes, which
the claim says is a Header line carrying no line numbers — is decoded by the
whole-commit decoder as an Addition that carries new line number 1 (the `'+'`
branch fires before the preamble test is ever reached); and the single-file
decoder decodes `"+x"` after the same header as an Addition carrying no line
number at all, where the claim requires a new line number. -/
theorem diff_preamble_classification_counterexample :
    ("+++ b/f").toList.take 3 = ['+', '+', '+']
    ∧ parseDiffHunks true [("@@ -1 +1 @@").toList, ("+++ b/f").toList]
      = [{ header := ("@@ -1 +1 @@").toList
           lines := [{ type := .Addition, content := ("++ b/f").toList
                       oldLineNumber := -1, newLineNumber := 1 }]
           oldStart := 1, oldCount := 1, newStart := 1, newCount := 1 }]
    ∧ parseDiffHunks false [("@@ -1 +1 @@").toList, ("+x").toList]
      = [{ header := ("@@ -1 +1 @@").toList
           lines := [{ type := .Addition, content := ['x']
                       oldLineNumber := -1, newLineNumber := -1 }]
           oldStart := 1, oldCount := 1, newStart := 1, newCount := 1 }] :=
  ⟨rfl, rfl, rfl⟩

/-- Claim C7, amended: in the whole-commit decoder (`getCommitDiffAll`) every
hunk satisfies the numbering discipline — the running counters start at the
parsed old/new starts; a line classified Addition carries only a new line
number and advances only the new counter, Deletion only the old, Context
both, Header neither, and unclassified lines are skipped.  However
classification is by first match on the leading character, so `'+'`/`'-'`
preamble lines (`"+++"`, `"---"`) are classified Addition/Deletion, not
Header; and the single-file decoder (`getCommitDiff`) classifies lines the
same way but populates no line-number fields at all (both stay −1). -/
theorem diff_line_numbers_amended :
    (∀ lines : List Str, ∀ h ∈ parseDiffHunks true lines,
        linesNumbered h.oldStart h.newStart h.lines = true)
    ∧ (∀ lines : List Str, ∀ h ∈ parseDiffHunks false lines, ∀ l ∈ h.lines,
        l.oldLineNumber = -1 ∧ l.newLineNumber = -1)
    ∧ (∀ (o n : Int) (rest : Str), classifyDiffLine true o n ('+' :: rest)
        = some ({ type := .Addition, content := rest, oldLineNumber := -1, newLineNumber := n },
                o, n + 1))
    ∧ (∀ (o n : Int) (rest : Str), classifyDiffLine true o n ('-' :: rest)
        = some ({ type := .Deletion, content := rest, oldLineNumber := o, newLineNumber := -1 },
                o + 1, n)) := by
  refine ⟨?_, ?_, ?_, ?_⟩
  · intro lines h hm
    refine diffFold_inv lines [] 0 0 (by simp) (fun hs h heq => absurd heq.symm (by simp)) h ?_
    exact hm
  · intro lines h hm l hl
    exact diffFoldNoNums_inv lines [] 0 0 (by simp) h hm l hl
  · intro o n rest
    simp [classifyDiffLine]
  · intro o n rest
    simp [classifyDiffLine]

/-- Witness for the amended C7 on the concrete one-hunk diffs
`["@@ -1 +1 @@", "+x"]`: in the whole-commit decoder the single Addition
line carries new line number 1 and satisfies the numbering discipline from
the parsed starts (1, 1); in the single-file decoder the same line carries
no line numbers. -/
theorem diff_line_numbers_witness :
    linesNumbered 1 1
        [{ type := .Addition, content := ['x'], oldLineNumber := -1, newLineNumber := 1 }] = true
    ∧ ({ type := .Addition, content := ['x'], oldLineNumber := -1,
          newLineNumber := -1 : GitDiffLine }).oldLineNumber = -1
    ∧ ({ type := .Addition, content := ['x'], oldLineNumber := -1,
          newLineNumber := -1 : GitDiffLine }).newLineNumber = -1 :=
  ⟨diff_line_numbers_amended.1 [("@@ -1 +1 @@").toList, ("+x").toList]
      { header := ("@@ -1 +1 @@").toList
        lines := [{ type := .Addition, content := ['x'], oldLineNumber := -1, newLineNumber := 1 }]
        oldStart := 1, oldCount := 1, newStart := 1, newCount := 1 } (List.mem_singleton.mpr rfl),
   (diff_line_numbers_amended.2.1 [("@@ -1 +1 @@").toList, ("+x").toList]
      { header := ("@@ -1 +1 @@").toList
        lines := [{ type := .Addition, content := ['x'], oldLineNumber := -1, newLineNumber := -1 }]
        oldStart := 1, oldCount := 1, newStart := 1, newCount := 1 }
      (List.mem_singleton.mpr rfl)
      { type := .Addition, content := ['x'], oldLineNumber := -1, newLineNumber := -1 }
      (List.mem_singleton.mpr rfl)).1,
   (diff_line_numbers_amended.2.1 [("@@ -1 +1 @@").toList, ("+x").toList]
      { header := ("@@ -1 +1 @@").toList
        lines := [{ type := .Addition, content := ['x'], oldLineNumber := -1, newLineNumber := -1 }]
        oldStart := 1, oldCount := 1, newStart := 1, newCount := 1 }
      (List.mem_singleton.mpr rfl)
      { type := .Addition, content := ['x'], oldLineNumber := -1, newLineNumber := -1 }
      (List.mem_singleton.mpr rfl)).2⟩

end VersionTools
